import Mathlib

/-!
Verification of the memory-mcp core against its specification.

The development shallowly embeds the relevant program units:

* `packages/common/src/utils.ts` (`generateUid`),
* `packages/storage-md/src/para-manager.ts` (`determineTargetCategory` / `shouldArchive`),
* `packages/storage-md/src/backlink-manager.ts` (`syncBacklinksForNote`,
  `cleanupBacklinksForDeletedNote`),
* the MCP tool registry (`executeTool`),
* the hybrid search engine (`enhanceWithLinkData`, `calculateLinkScore`,
  `combineScores`, `rerankResults`),
* the link-graph manager (`findBacklinks`, `findOutboundLinks`,
  `findConnectedNotes`).

Machine integers are modelled by `Nat`/`Int` (JS numbers of the relevant
magnitudes are exact), fractional scores by `ℚ`, fallible operations by
`Except`/`Option`, and the SQLite state by explicit finite tables.
JavaScript's stable `Array.prototype.sort` is embedded as stable insertion
sort.
-/

namespace MemoryMcp

/-! ## UID generation (`packages/common/src/utils.ts`, `generateUid`)

The source builds the UID string from the current local time with
`padStart`-padded decimal fields plus a process-wide counter:

```
uidCounter = (uidCounter + 1) % 1000;
uniqueId = (milliseconds * 1000 + uidCounter).toString().padStart(6, '0');
return `${year}${month}${day}T${hours}${minutes}${seconds}${uniqueId}Z`;
```
-/

/-- Fixed-width decimal rendering of `n`, most significant digit first.
For `n < 10 ^ w` this is exactly the `w`-character zero-padded decimal
numeral, i.e. `n.toString().padStart(w, '0')` of the source (the source's
year field is written unpadded, which agrees with `natPad 4` for four-digit
years). -/
def natPad : ℕ → ℕ → List Char
  | 0, _ => []
  | w + 1, n => Nat.digitChar (n / 10 ^ w) :: natPad w (n % 10 ^ w)

/-- The wall-clock reading taken by `generateUid` via `new Date()`:
calendar fields plus the millisecond component. -/
structure UidTime where
  year : ℕ
  month : ℕ
  day : ℕ
  hour : ℕ
  minute : ℕ
  second : ℕ
  ms : ℕ
deriving DecidableEq

/-- Field ranges actually produced by the JavaScript `Date` accessors
(four-digit years for the era the program runs in). -/
abbrev UidTime.wf (t : UidTime) : Prop :=
  1000 ≤ t.year ∧ t.year < 10000 ∧ t.month < 100 ∧ t.day < 100 ∧
    t.hour < 100 ∧ t.minute < 100 ∧ t.second < 100 ∧ t.ms < 1000

/-- The date-time prefix of a reading collapsed to one number
(year, month, day, hour, minute, second, most significant first). -/
def UidTime.key (t : UidTime) : ℕ :=
  ((((t.year * 100 + t.month) * 100 + t.day) * 100 + t.hour) * 100 + t.minute) * 100
    + t.second

/-- The full clock reading including milliseconds; real time is
non-decreasing in this value. -/
def UidTime.keyMs (t : UidTime) : ℕ :=
  t.key * 1000 + t.ms

/-- Character sequence of the template literal
`` `${year}${month}${day}T${hours}${minutes}${seconds}${uniqueId}Z` ``. -/
def uidChars (t : UidTime) (uniqueId : ℕ) : List Char :=
  natPad 4 t.year ++ natPad 2 t.month ++ natPad 2 t.day ++ ['T'] ++
    natPad 2 t.hour ++ natPad 2 t.minute ++ natPad 2 t.second ++
    natPad 6 uniqueId ++ ['Z']

/-- The UID string assembled from a clock reading and a `uniqueId`. -/
def uidStr (t : UidTime) (uniqueId : ℕ) : String :=
  String.mk (uidChars t uniqueId)

/-- Embedding of `generateUid`: given the clock reading and the current
value of the module-level `uidCounter`, produce the UID string and the
updated counter. -/
def generateUid (t : UidTime) (uidCounter : ℕ) : String × ℕ :=
  let c := (uidCounter + 1) % 1000
  let uniqueId := t.ms * 1000 + c
  (uidStr t uniqueId, c)

/-- A run of consecutive `generateUid` calls: the clock readings observed
by each call, threaded through the module-level counter. -/
def uidRun : ℕ → List UidTime → List String
  | _, [] => []
  | c, t :: ts => (generateUid t c).1 :: uidRun (generateUid t c).2 ts

/-- Side conditions under which a run of `generateUid` calls is
well-behaved: every reading is in range, the clock never goes backwards,
and whenever the 1000-cycle counter wraps the clock's millisecond reading
has strictly advanced. -/
def uidRunOkB : ℕ → List UidTime → Bool
  | _, [] => true
  | _, [t] => decide t.wf
  | c, t₁ :: t₂ :: ts =>
    let c₁ := (c + 1) % 1000
    decide t₁.wf && decide (t₁.keyMs ≤ t₂.keyMs) &&
      (if c₁ = 999 then decide (t₁.keyMs < t₂.keyMs) else true) &&
      uidRunOkB c₁ (t₂ :: ts)

/-! ## PARA organizer (`packages/storage-md/src/para-manager.ts`) -/

/-- The header fields read by `determineTargetCategory` / `shouldArchive`.
Timestamps are in epoch milliseconds; `updated = none` models a missing or
unparsable `updated` field (for which `shouldArchive` returns `false`). -/
structure ParaFm where
  project : Option String
  category : String
  updated : Option ℤ

/-- Truthiness of `frontMatter.project && frontMatter.project.trim()`. -/
def ParaFm.projectNonempty (fm : ParaFm) : Bool :=
  match fm.project with
  | none => false
  | some p => !(p.trim == "")

/-- Embedding of `ParaManager.shouldArchive`: the floored number of days
since `updated` exceeds the archive threshold. `Math.floor` of the real
quotient is integer floor division. -/
def shouldArchive (thresholdDays : ℤ) (now : ℤ) (fm : ParaFm) : Bool :=
  match fm.updated with
  | none => false
  | some u => decide (thresholdDays < (now - u).fdiv 86400000)

/-- Valid PARA categories, as listed in `determineTargetCategory`. -/
def validCategories : List String :=
  ["Projects", "Areas", "Resources", "Archives"]

/-- Embedding of `ParaManager.determineTargetCategory`. -/
def determineTargetCategory (thresholdDays : ℤ) (now : ℤ) (fm : ParaFm) : String :=
  if fm.projectNonempty then "Projects"
  else if shouldArchive thresholdDays now fm then "Archives"
  else if fm.category ∈ validCategories then fm.category
  else "Resources"

/-- Restatement of the routing rule in the specification's own words, for
a note whose `updated` timestamp is present: Projects when the trimmed
`project` is non-empty; else Archives when the number of whole days
between now and `updated` exceeds the threshold; else the existing
category when valid; else Resources. -/
def determineTargetCategorySpec (thresholdDays : ℤ) (now : ℤ)
    (project : Option String) (category : String) (updated : ℤ) : String :=
  if (project.map String.trim).getD "" ≠ "" then "Projects"
  else if (now - updated).fdiv 86400000 > thresholdDays then "Archives"
  else if category = "Projects" ∨ category = "Areas" ∨ category = "Resources" ∨
      category = "Archives" then category
  else "Resources"

/-! ## Backlink synchronizer (`packages/storage-md/src/backlink-manager.ts`) -/

/-- Result of `syncBacklinksForNote` on a note that was found: the header
`links` list after the call and whether the file was written back. -/
structure SyncOutcome where
  finalLinks : List String
  wroteFile : Bool
deriving DecidableEq

/-- Embedding of the decision core of `BacklinkManager.syncBacklinksForNote`:
given the note's current header `links` and the `outboundLinks` returned by
`analyzeLinks`, the note is saved with `links := outboundLinks` exactly when
`JSON.stringify` of the two lists differs — i.e. exactly when the lists
differ as ordered lists (JSON serialization of string arrays is injective). -/
def syncBacklinksForNote (headerLinks outboundLinks : List String) : SyncOutcome :=
  if headerLinks = outboundLinks then ⟨headerLinks, false⟩
  else ⟨outboundLinks, true⟩

/-- A vault note as read by `cleanupBacklinksForDeletedNote`: its UID and
its header `links` list. -/
structure VaultNote where
  id : String
  links : List String
deriving DecidableEq

/-- The `BacklinkSyncEvent` record emitted by the backlink manager. -/
structure BacklinkSyncEvent where
  type : String
  targetUid : String
  affectedNotes : List String
deriving DecidableEq

/-- Per-note body of the cleanup loop: drop `deletedUid` from the `links`
list and report (via the length comparison used by the source) whether the
note changed and was saved. -/
def cleanupNote (deletedUid : String) (n : VaultNote) : VaultNote × Bool :=
  let updatedLinks := n.links.filter (fun l => l ≠ deletedUid)
  if n.links.length ≠ updatedLinks.length then (⟨n.id, updatedLinks⟩, true)
  else (n, false)

/-- Result of `cleanupBacklinksForDeletedNote`: the vault contents after
the call, the affected note UIDs, and the emitted `backlinkSync` events. -/
structure CleanupOutcome where
  vault : List VaultNote
  affected : List String
  events : List BacklinkSyncEvent
deriving DecidableEq

/-- Embedding of `BacklinkManager.cleanupBacklinksForDeletedNote`: every
note is filtered; UIDs of saved notes are collected in vault order; a
single `remove` event is emitted only when `affectedNotes.length > 0`. -/
def cleanupBacklinksForDeletedNote (deletedUid : String) (vault : List VaultNote) :
    CleanupOutcome :=
  let processed := vault.map (cleanupNote deletedUid)
  let affected := (processed.filter (fun p => p.2)).map (fun p => p.1.id)
  { vault := processed.map (fun p => p.1)
    affected := affected
    events :=
      if affected.length > 0 then [⟨"remove", deletedUid, affected⟩] else [] }

/-! ## Tool registry (`mcp-server` tools module, `executeTool`)

`executeTool` first runs `ToolNameSchema.safeParse` (the registered names
are exactly `search_memory` and `create_note`), then looks the definition
up in `toolMap`, then validates the raw input against the tool's zod
schema, and only then hands the parsed input to the handler under
`withExecutionPolicy`. The two tools' zod validators and policy-wrapped
handler runs are abstract parameters; `handlerCalls` counts how many times
the handler body was entered. -/

/-- Error kinds raised by `executeTool` (`ErrorCode` of `@memory-mcp/common`). -/
inductive McpErrorCode where
  | invalidRequest
  | toolError
  | schemaValidation
deriving DecidableEq

/-- A raised `MemoryMcpError`: its code and, for schema validation
failures, the validator's diagnostic payload (`validationErrors`). -/
structure McpError where
  code : McpErrorCode
  diag : Option String
deriving DecidableEq

/-- One registered tool: its input validator (the zod schema; an `error`
carries the validator's diagnostic message) and its handler as run under
`withExecutionPolicy`, returning the outcome together with the number of
handler invocations that occurred. -/
structure ToolImpl (ι π ρ : Type) where
  validate : ι → Except String π
  run : π → Except McpError ρ × ℕ

/-- Outcome of `executeTool`: the value returned or error thrown, plus how
many times the tool's handler body ran. -/
structure ExecOutcome (ρ : Type) where
  result : Except McpError ρ
  handlerCalls : ℕ

/-- Membership test of `ToolNameSchema.safeParse`: the registered tool
names. -/
def toolNameOk (name : String) : Bool :=
  name = "search_memory" || name = "create_note"

/-- Lookup in `toolMap`. -/
def toolMapLookup {ι π ρ : Type} (searchMemory createNote : ToolImpl ι π ρ)
    (name : String) : Option (ToolImpl ι π ρ) :=
  if name = "search_memory" then some searchMemory
  else if name = "create_note" then some createNote
  else none

/-- Embedding of `executeTool`. -/
def executeTool {ι π ρ : Type} (searchMemory createNote : ToolImpl ι π ρ)
    (name : String) (rawInput : ι) : ExecOutcome ρ :=
  if ¬ toolNameOk name then ⟨.error ⟨.invalidRequest, none⟩, 0⟩
  else
    match toolMapLookup searchMemory createNote name with
    | none => ⟨.error ⟨.toolError, none⟩, 0⟩
    | some tool =>
      match tool.validate rawInput with
      | .error d => ⟨.error ⟨.schemaValidation, some d⟩, 0⟩
      | .ok parsed =>
        let r := tool.run parsed
        ⟨r.1, r.2⟩

/-! ## Link store (`index-search` `LinkGraphManager` prepared queries)

The `links` table is a finite list of rows; `findBacklinks` /
`findOutboundLinks` filter it, join against the `notes` table
(`hasNote`), order by `strength DESC, last_seen_at DESC` and apply the
`LIMIT`. SQLite's order among fully tied rows is engine-defined; the
embedding uses the stable order of the table. -/

/-- A row of the `links` table (the fields the queries read). -/
structure LinkRel where
  sourceUid : String
  targetUid : String
  strength : ℕ
  lastSeenAt : ℤ
deriving DecidableEq

/-- The database state seen by the search engine: the `links` table, the
`notes` table membership (used by the query joins and by `getNodeInfo`),
and which per-note link queries currently throw (modelling a database
error during result enhancement). -/
structure LinksDb where
  links : List LinkRel
  hasNote : String → Bool
  linkFetchFails : String → Bool

/-- Ordering of `ORDER BY l.strength DESC, l.last_seen_at DESC`. -/
def sqlLinkLe (a b : LinkRel) : Prop :=
  b.strength < a.strength ∨
    (a.strength = b.strength ∧ b.lastSeenAt ≤ a.lastSeenAt)

instance : DecidableRel sqlLinkLe := fun a b =>
  inferInstanceAs (Decidable (b.strength < a.strength ∨
    (a.strength = b.strength ∧ b.lastSeenAt ≤ a.lastSeenAt)))

instance : IsTotal LinkRel sqlLinkLe where
  total a b := by
    unfold sqlLinkLe
    rcases lt_trichotomy a.strength b.strength with h | h | h
    · exact Or.inr (Or.inl h)
    · rcases le_total a.lastSeenAt b.lastSeenAt with h' | h'
      · exact Or.inr (Or.inr ⟨h.symm, h'⟩)
      · exact Or.inl (Or.inr ⟨h, h'⟩)
    · exact Or.inl (Or.inl h)

instance : IsTrans LinkRel sqlLinkLe where
  trans a b c hab hbc := by
    unfold sqlLinkLe at *
    rcases hab with h | ⟨h, h'⟩ <;> rcases hbc with g | ⟨g, g'⟩
    · exact Or.inl (lt_trans g h)
    · exact Or.inl (g ▸ h)
    · exact Or.inl (h ▸ g)
    · exact Or.inr ⟨h.trans g, g'.trans h'⟩

/-- Embedding of the `findBacklinks` query (`WHERE l.target_uid = ?`,
join on the source note, ordered, limited). -/
def findBacklinks (db : LinksDb) (targetUid : String) (limit : ℕ) : List LinkRel :=
  (List.insertionSort sqlLinkLe
    (db.links.filter (fun l => l.targetUid = targetUid ∧ db.hasNote l.sourceUid))).take limit

/-- Embedding of the `findOutboundLinks` query (`WHERE l.source_uid = ?`,
join on the target note, ordered, limited). -/
def findOutboundLinks (db : LinksDb) (sourceUid : String) (limit : ℕ) : List LinkRel :=
  (List.insertionSort sqlLinkLe
    (db.links.filter (fun l => l.sourceUid = sourceUid ∧ db.hasNote l.targetUid))).take limit

/-! ## Hybrid search engine (`SearchEngine`, `index-search/search-engine`) -/

/-- A `SearchResult` row as flowing through the hybrid search: the note
UID, its (FTS, later combined) score, and the attached outbound link UIDs
(`none` when no link data was attached). -/
structure SearchRow where
  id : String
  score : ℚ
  links : Option (List String)
deriving DecidableEq

/-- Embedding of `SearchEngine.calculateLinkScore`: backlink strengths
weighted twice, outbound strengths once, normalized by 20 and clamped to 1. -/
def calculateLinkScore (backlinks outboundLinks : List LinkRel) : ℚ :=
  let backlinkScore : ℚ := (backlinks.map (fun l => (l.strength : ℚ))).sum * 2
  let outboundScore : ℚ := (outboundLinks.map (fun l => (l.strength : ℚ))).sum
  min ((backlinkScore + outboundScore) / 20) 1

/-- Embedding of `SearchEngine.combineScores`: FTS 70%, links 30%. -/
def combineScores (ftsScore linkScore : ℚ) : ℚ :=
  ftsScore * (7 / 10) + linkScore * (3 / 10)

/-- Per-candidate body of `SearchEngine.enhanceWithLinkData`: fetch up to
10 backlinks and 10 outbound links, attach the outbound UIDs and combine
the scores; if the link queries throw for this candidate, keep the
original row unchanged. -/
def enhanceOne (db : LinksDb) (r : SearchRow) : SearchRow :=
  if db.linkFetchFails r.id then r
  else
    let backlinks := findBacklinks db r.id 10
    let outboundLinks := findOutboundLinks db r.id 10
    { id := r.id
      links := some (outboundLinks.map (fun l => l.targetUid))
      score := combineScores r.score (calculateLinkScore backlinks outboundLinks) }

/-- Embedding of `SearchEngine.enhanceWithLinkData`. -/
def enhanceWithLinkData (db : LinksDb) (results : List SearchRow) : List SearchRow :=
  results.map (enhanceOne db)

/-- The tie-break key of `rerankResults`: `a.links?.length || 0`. -/
def linkCnt (r : SearchRow) : ℕ := (r.links.getD []).length

/-- Order enforced by the `rerankResults` comparator: combined score
descending, ties by attached-link count descending (equal keys keep the
incoming order; JS sort is stable). -/
def rerankLe (a b : SearchRow) : Prop :=
  b.score < a.score ∨ (a.score = b.score ∧ linkCnt b ≤ linkCnt a)

instance : DecidableRel rerankLe := fun a b =>
  inferInstanceAs (Decidable (b.score < a.score ∨
    (a.score = b.score ∧ linkCnt b ≤ linkCnt a)))

instance : IsTotal SearchRow rerankLe where
  total a b := by
    unfold rerankLe
    rcases lt_trichotomy a.score b.score with h | h | h
    · exact Or.inr (Or.inl h)
    · rcases le_total (linkCnt a) (linkCnt b) with h' | h'
      · exact Or.inr (Or.inr ⟨h.symm, h'⟩)
      · exact Or.inl (Or.inr ⟨h, h'⟩)
    · exact Or.inl (Or.inl h)

instance : IsTrans SearchRow rerankLe where
  trans a b c hab hbc := by
    unfold rerankLe at *
    rcases hab with h | ⟨h, h'⟩ <;> rcases hbc with g | ⟨g, g'⟩
    · exact Or.inl (lt_trans g h)
    · exact Or.inl (g ▸ h)
    · exact Or.inl (h ▸ g)
    · exact Or.inr ⟨h.trans g, g'.trans h'⟩

/-- Embedding of `SearchEngine.rerankResults` (stable JS sort under the
comparator above). -/
def rerankResults (results : List SearchRow) : List SearchRow :=
  List.insertionSort rerankLe results

/-- The search pipeline from the FTS candidate list to the returned
results: enhancement followed by reranking. -/
def searchRerank (db : LinksDb) (ftsResults : List SearchRow) : List SearchRow :=
  rerankResults (enhanceWithLinkData db ftsResults)

/-- A candidate's full outbound-link count in the graph (no `LIMIT`),
used to state the specification's tie-break clause literally. -/
def fullOutboundCount (db : LinksDb) (uid : String) : ℕ :=
  (db.links.filter (fun l => l.sourceUid = uid ∧ db.hasNote l.targetUid)).length

/-- The ordering asserted by the specification sentence "sort by combined
score descending, tie-break by outbound-link count descending", reading
"outbound-link count" as the candidate's outbound-link count. -/
def claimTieLe (db : LinksDb) (a b : SearchRow) : Prop :=
  b.score < a.score ∨
    (a.score = b.score ∧ fullOutboundCount db b.id ≤ fullOutboundCount db a.id)

instance (db : LinksDb) : DecidableRel (claimTieLe db) := fun a b =>
  inferInstanceAs (Decidable (b.score < a.score ∨
    (a.score = b.score ∧ fullOutboundCount db b.id ≤ fullOutboundCount db a.id)))

/-! ## Bounded graph traversal (`LinkGraphManager.findConnectedNotes`)

The source maintains a visited set, an insertion-ordered result map and a
FIFO queue of `{uid, currentDepth, score}` entries.  Each loop iteration
(while the queue is non-empty and fewer than `limit` results were
collected) pops one entry; entries at `currentDepth ≥ depth` are skipped,
otherwise every not-yet-visited connected UID is marked visited, looked
up in `notes`, recorded with score `score * 0.7 ^ currentDepth` and depth
`currentDepth + 1`, and re-enqueued while `currentDepth + 1 < depth`.
The result map values are finally sorted by score descending and truncated
to `limit`.

The loop always terminates: every enqueued entry is freshly marked
visited, visited UIDs come from the endpoints of the `links` table, and
each iteration pops one entry — so the iteration count is bounded by
`1 + 2 * links.length`.  The embedding runs the loop on that much fuel,
which is never exhausted. -/

/-- Traversal direction option. -/
inductive BfsDirection where
  | outgoing
  | incoming
  | both
deriving DecidableEq

/-- First-occurrence deduplication, as performed by
`Array.from(new Set(...))`. -/
def setDedup (seen : List String) : List String → List String
  | [] => []
  | a :: as =>
    if a ∈ seen then setDedup seen as else a :: setDedup (a :: seen) as

/-- Embedding of `getConnectedUids`: outbound targets then backlink
sources (each limited to 50), deduplicated keeping first occurrences. -/
def getConnectedUids (db : LinksDb) (dir : BfsDirection) (uid : String) : List String :=
  let outPart :=
    if dir = .outgoing ∨ dir = .both then
      (findOutboundLinks db uid 50).map (fun l => l.targetUid)
    else []
  let inPart :=
    if dir = .incoming ∨ dir = .both then
      (findBacklinks db uid 50).map (fun l => l.sourceUid)
    else []
  setDedup [] (outPart ++ inPart)

/-- A queue entry of the traversal. -/
structure QEntry where
  uid : String
  currentDepth : ℕ
  score : ℚ
deriving DecidableEq

/-- A returned `LinkGraphNode`, reduced to the fields the traversal
computes (`getNodeInfo`'s metadata fields are carried along unchanged in
the source and are irrelevant here). -/
structure GNode where
  uid : String
  score : ℚ
  depth : ℕ
deriving DecidableEq

/-- The loop state: visited set, insertion-ordered collected results, and
the FIFO queue.  `resultNodes.set` is always called with a fresh key
(guarded by the visited set), so the map is faithfully a list extended at
the back. -/
structure BfsState where
  visited : List String
  result : List GNode
  queue : List QEntry
deriving DecidableEq

/-- Body of the inner `for (const connectedUid of connectedUids)` loop. -/
def expandChild (db : LinksDb) (depth : ℕ) (parent : QEntry) (st : BfsState)
    (cu : String) : BfsState :=
  if cu ∈ st.visited then st
  else
    let visited' := cu :: st.visited
    if db.hasNote cu then
      let nodeScore := parent.score * (7 / 10 : ℚ) ^ parent.currentDepth
      let st' :=
        { visited := visited'
          result := st.result ++ [⟨cu, nodeScore, parent.currentDepth + 1⟩]
          queue :=
            if parent.currentDepth + 1 < depth then
              st.queue ++ [⟨cu, parent.currentDepth + 1, nodeScore⟩]
            else st.queue }
      st'
    else { st with visited := visited' }

/-- The `while` loop of `findConnectedNotes`, on explicit fuel. -/
def bfsLoop (db : LinksDb) (dir : BfsDirection) (depth limit : ℕ) :
    ℕ → BfsState → List GNode
  | 0, st => st.result
  | fuel + 1, st =>
    match st.queue with
    | [] => st.result
    | e :: rest =>
      if limit ≤ st.result.length then st.result
      else if depth ≤ e.currentDepth then
        bfsLoop db dir depth limit fuel { st with queue := rest }
      else
        bfsLoop db dir depth limit fuel
          ((getConnectedUids db dir e.uid).foldl (expandChild db depth e)
            { st with queue := rest })

/-- Final ordering of `findConnectedNotes`: score descending (stable). -/
def nodeLe (a b : GNode) : Prop := b.score ≤ a.score

instance : DecidableRel nodeLe := fun a b =>
  inferInstanceAs (Decidable (b.score ≤ a.score))

instance : IsTotal GNode nodeLe where
  total a b := (le_total b.score a.score).imp id id

instance : IsTrans GNode nodeLe where
  trans _ _ _ hab hbc := le_trans hbc hab

/-- Embedding of `LinkGraphManager.findConnectedNotes`. -/
def findConnectedNotes (db : LinksDb) (startUid : String) (depth limit : ℕ)
    (dir : BfsDirection) : List GNode :=
  let st0 : BfsState := ⟨[startUid], [], [⟨startUid, 0, 1⟩]⟩
  (List.insertionSort nodeLe
    (bfsLoop db dir depth limit (1 + 2 * db.links.length) st0)).take limit

/-! ### Auxiliary quantities for reasoning about the traversal -/

/-- Score that the traversal assigns to every node recorded at a given
depth: the start is enqueued with score 1 and a node discovered from a
parent popped at `currentDepth = d` gets `parentScore * 0.7 ^ d`. -/
def layerScore : ℕ → ℚ
  | 0 => 1
  | d + 1 => layerScore d * (7 / 10) ^ d

/-- Visited set after the inner loop of one expansion processed the
connected UIDs `us` (every fresh UID is marked visited, whether or not
its note row exists). -/
def visitAfter (v : List String) : List String → List String
  | [] => v
  | u :: us => if u ∈ v then visitAfter v us else visitAfter (u :: v) us

/-- Nodes appended to the result map by one expansion: the fresh UIDs of
`us` whose note row exists, scored from the popped entry's depth `pd` and
score `ps`. -/
def newNodes (db : LinksDb) (pd : ℕ) (ps : ℚ) (v : List String) :
    List String → List GNode
  | [] => []
  | u :: us =>
    if u ∈ v then newNodes db pd ps v us
    else if db.hasNote u then
      ⟨u, ps * (7 / 10 : ℚ) ^ pd, pd + 1⟩ :: newNodes db pd ps (u :: v) us
    else newNodes db pd ps (u :: v) us

/-- FIFO layering invariant of the traversal queue: entry depths are
non-decreasing and any two entries are within one level of each other. -/
def QueueOk (q : List QEntry) : Prop :=
  q.Pairwise (fun a b => a.currentDepth ≤ b.currentDepth) ∧
    ∀ a ∈ q, ∀ b ∈ q, a.currentDepth ≤ b.currentDepth + 1

/-- Simulation invariant between a traversal run at depth `dep` (state
`st1`) and a run at depth `dep + 1` (state `st2`). -/
def BfsInv (dep : ℕ) (st1 st2 : BfsState) : Prop :=
  st2.visited = st1.visited ∧
  st2.result = st1.result ∧
  (∃ extras, st2.queue = st1.queue ++ extras ∧
    (∀ e ∈ extras, e.currentDepth = dep ∧ e.score = layerScore dep) ∧
    (extras ≠ [] → ∀ e ∈ st1.queue, e.currentDepth + 1 = dep)) ∧
  QueueOk st1.queue ∧
  (∀ e ∈ st1.queue, e.currentDepth < dep ∧ e.score = layerScore e.currentDepth) ∧
  ∀ n ∈ st1.result, 1 ≤ n.depth ∧ n.depth ≤ dep ∧ n.score = layerScore n.depth

/-! ### Concrete fixtures used by witnesses and counterexamples -/

/-- A concrete clock reading (2026-01-02 03:04:05.006). -/
def sampleTime : UidTime := ⟨2026, 1, 2, 3, 4, 5, 6⟩

/-- The same reading one millisecond later. -/
def sampleTimeNext : UidTime := ⟨2026, 1, 2, 3, 4, 5, 7⟩

/-- A tool whose zod validation always fails with diagnostic "bad". -/
def failValTool : ToolImpl Unit Unit Unit :=
  ⟨fun _ => .error "bad", fun _ => (.ok (), 1)⟩

/-- A tool whose validation succeeds and whose handler runs once. -/
def okTool : ToolImpl Unit Unit Unit :=
  ⟨fun _ => .ok (), fun _ => (.ok (), 1)⟩

/-- Link rows giving note `x` twelve outbound links and note `y` eleven,
all of strength 1; every referenced note exists and no query fails. -/
def tieDb : LinksDb :=
  { links :=
      (List.range 12).map (fun i => ⟨"x", "x" ++ toString i, 1, 0⟩) ++
        (List.range 11).map (fun i => ⟨"y", "y" ++ toString i, 1, 0⟩)
    hasNote := fun _ => true
    linkFetchFails := fun _ => false }

/-- FTS candidates `y` then `x`, with equal FTS scores. -/
def tieRows : List SearchRow := [⟨"y", 1 / 2, none⟩, ⟨"x", 1 / 2, none⟩]

/-- A two-edge link graph `a → b → c` with all notes present. -/
def chainDb : LinksDb :=
  { links := [⟨"a", "b", 1, 0⟩, ⟨"b", "c", 1, 0⟩]
    hasNote := fun _ => true
    linkFetchFails := fun _ => false }

/-- A link database whose per-note link queries throw for note `f`. -/
def failFetchDb : LinksDb :=
  { links := [⟨"a", "b", 1, 0⟩]
    hasNote := fun _ => true
    linkFetchFails := fun u => u = "f" }

/-! ## Theorems

Rational arithmetic is unsealed so that concrete witnesses and
counterexamples evaluate inside `decide`. -/

unseal Rat.add Rat.mul Rat.inv Rat.sub

/-! ### C2 — per-note backlink sync -/

/-- Claim C2, counterexample: a note whose header `links` lists the same
UIDs as the analyzed outbound links but in a different order has equal
link *sets*, yet `syncBacklinksForNote` still writes the file back,
because the source compares `JSON.stringify` of the two lists. -/
theorem syncBacklinks_setEqual_writes_cex :
    (["a", "b"] : List String).toFinset = (["b", "a"] : List String).toFinset ∧
    (syncBacklinksForNote ["a", "b"] ["b", "a"]).wroteFile = true := by
  decide

/-- Claim C2 (amended): after `syncBacklinksForNote`, the header `links`
equal the analyzed outbound links as a set (indeed as a list whenever a
write happened), but the file is written back exactly when the two lists
differ as *ordered lists* — an order-permuted header is still rewritten. -/
theorem syncBacklinks_listDiff_spec (headerLinks outboundLinks : List String) :
    (syncBacklinksForNote headerLinks outboundLinks).finalLinks.toFinset =
      outboundLinks.toFinset ∧
    ((syncBacklinksForNote headerLinks outboundLinks).wroteFile = true ↔
      headerLinks ≠ outboundLinks) := by
  unfold syncBacklinksForNote
  by_cases h : headerLinks = outboundLinks
  · subst h
    simp
  · simp [h]

/-! ### C5 — deletion cleanup -/

/-- Dropping a present element by `filter` strictly shrinks the list. -/
theorem length_filter_ne_lt (d : String) (l : List String) (h : d ∈ l) :
    (l.filter (fun x => !decide (x = d))).length < l.length := by
  induction l with
  | nil => cases h
  | cons a as ih =>
    by_cases ha : a = d
    · subst ha
      simp only [List.filter_cons]
      simpa using Nat.lt_succ_of_le (List.length_filter_le _ as)
    · rcases List.mem_cons.mp h with h' | h'
      · exact absurd h'.symm ha
      · simp only [List.filter_cons]
        simpa [ha] using ih h'

/-- Characterization of the per-note cleanup step. -/
theorem cleanupNote_eq (deletedUid : String) (n : VaultNote) :
    cleanupNote deletedUid n =
      (⟨n.id, n.links.filter (fun l => l ≠ deletedUid)⟩,
        decide (deletedUid ∈ n.links)) := by
  unfold cleanupNote
  simp only [ne_eq, decide_not]
  by_cases h : deletedUid ∈ n.links
  · have hlt := length_filter_ne_lt deletedUid n.links h
    rw [if_pos (by omega)]
    simp [h]
  · have heq : n.links.filter (fun l => !decide (l = deletedUid)) = n.links :=
      List.filter_eq_self.mpr fun a ha => by
        simp only [Bool.not_eq_true', decide_eq_false_iff_not]
        exact fun had => h (had ▸ ha)
    rw [if_neg (not_not_intro (by rw [heq]))]
    simp [h, heq]

/-- Claim C5, counterexample: when no vault note links to the deleted
UID, `cleanupBacklinksForDeletedNote` emits *no* `BacklinkSync` event
(the emission is guarded by `affectedNotes.length > 0`). -/
theorem cleanup_noAffected_noEvent_cex :
    (∀ n ∈ [(⟨"n1", ["x"]⟩ : VaultNote)], "d" ∉ n.links) ∧
    (cleanupBacklinksForDeletedNote "d" [⟨"n1", ["x"]⟩]).events = [] := by
  decide

/-- The updated vault contents produced by the cleanup scan. -/
theorem cleanup_vault_eq (deletedUid : String) (vault : List VaultNote) :
    (vault.map (cleanupNote deletedUid)).map (fun p => p.1) =
      vault.map (fun n => ⟨n.id, n.links.filter (fun l => l ≠ deletedUid)⟩) := by
  induction vault with
  | nil => rfl
  | cons n vs ih => simp [cleanupNote_eq, ih]

/-- The affected-note UIDs collected by the cleanup scan. -/
theorem cleanup_affected_eq (deletedUid : String) (vault : List VaultNote) :
    (((vault.map (cleanupNote deletedUid)).filter (fun p => p.2)).map
        (fun p => p.1.id)) =
      (vault.filter (fun n => deletedUid ∈ n.links)).map (fun n => n.id) := by
  induction vault with
  | nil => rfl
  | cons n vs ih =>
    by_cases h : deletedUid ∈ n.links
    · simp [cleanupNote_eq, List.filter_cons, h, ih]
    · simp [cleanupNote_eq, List.filter_cons, h, ih]

/-- Claim C5 (amended): `cleanupBacklinksForDeletedNote d` removes `d`
from every note's `links`, collects the affected UIDs in vault order, and
emits exactly one `BacklinkSync {type := remove, target := d, affected}`
event when at least one note contained `d` — and no event at all when no
note contained it. -/
theorem cleanup_spec (deletedUid : String) (vault : List VaultNote) :
    cleanupBacklinksForDeletedNote deletedUid vault =
      ⟨vault.map (fun n => ⟨n.id, n.links.filter (fun l => l ≠ deletedUid)⟩),
        (vault.filter (fun n => deletedUid ∈ n.links)).map (fun n => n.id),
        if (vault.filter (fun n => deletedUid ∈ n.links)) = [] then []
        else [⟨"remove", deletedUid,
          (vault.filter (fun n => deletedUid ∈ n.links)).map (fun n => n.id)⟩]⟩ := by
  unfold cleanupBacklinksForDeletedNote
  refine CleanupOutcome.mk.injEq .. ▸ ?_
  refine ⟨cleanup_vault_eq deletedUid vault, cleanup_affected_eq deletedUid vault, ?_⟩
  rw [cleanup_affected_eq deletedUid vault]
  by_cases h : vault.filter (fun n => deletedUid ∈ n.links) = []
  · simp [h]
  · have : (vault.filter (fun n => deletedUid ∈ n.links)).length > 0 :=
      List.length_pos.mpr h
    simp [h, List.length_pos.mpr h]

/-! ### C6 — PARA target category -/

/-- Claim C6 (confirmed): for a note with an `updated` timestamp, the
PARA organizer's target category agrees with the specification's routing
rule: Projects on a non-empty trimmed `project`; else Archives when the
floored day difference exceeds the threshold; else a valid existing
category is preserved; else Resources. -/
theorem determineTargetCategory_spec_eq (thresholdDays now u : ℤ) (fm : ParaFm)
    (hu : fm.updated = some u) :
    determineTargetCategory thresholdDays now fm =
      determineTargetCategorySpec thresholdDays now fm.project fm.category u := by
  obtain ⟨proj, cat, upd⟩ := fm
  have hu' : upd = some u := hu
  subst hu'
  have e1 : (ParaFm.projectNonempty ⟨proj, cat, some u⟩ = true) ↔
      ((proj.map String.trim).getD "" ≠ "") := by
    cases proj with
    | none =>
      simp [ParaFm.projectNonempty, Option.getD]
    | some p =>
      simp [ParaFm.projectNonempty, Option.getD]
  have e2 : (shouldArchive thresholdDays now ⟨proj, cat, some u⟩ = true) ↔
      ((now - u).fdiv 86400000 > thresholdDays) := by
    simp [shouldArchive, gt_iff_lt]
  have e3 : (cat ∈ validCategories) ↔
      (cat = "Projects" ∨ cat = "Areas" ∨ cat = "Resources" ∨ cat = "Archives") := by
    simp [validCategories]
  unfold determineTargetCategory determineTargetCategorySpec
  split_ifs <;> try rfl
  all_goals tauto

/-- Witness for C6 at a concrete note: 100-day-old note in `Areas` with
no project and a 90-day threshold routes to Archives on both sides. -/
theorem determineTargetCategory_spec_eq_witness :
    (ParaFm.mk none "Areas" (some 0)).updated = some 0 ∧
    determineTargetCategory 90 8640000000 ⟨none, "Areas", some 0⟩ =
      determineTargetCategorySpec 90 8640000000 none "Areas" 0 :=
  ⟨rfl, determineTargetCategory_spec_eq 90 8640000000 0 ⟨none, "Areas", some 0⟩ rfl⟩

/-! ### C7 — tool execution validation failures -/

/-- Claim C7 (confirmed): `executeTool` rejects an unknown tool name with
`InvalidRequest`, rejects schema-invalid input with
`SchemaValidationError` carrying the validator's diagnostic payload, and
in both cases the handler (and hence the retry/timeout policy around it)
never runs. -/
theorem executeTool_validation_spec {ι π ρ : Type}
    (searchMemory createNote : ToolImpl ι π ρ) (name : String) (rawInput : ι) :
    (toolNameOk name = false →
      executeTool searchMemory createNote name rawInput =
        ⟨.error ⟨.invalidRequest, none⟩, 0⟩) ∧
    (toolNameOk name = false ↔
      toolMapLookup searchMemory createNote name = none) ∧
    (∀ tool : ToolImpl ι π ρ, ∀ d : String,
      toolMapLookup searchMemory createNote name = some tool →
      tool.validate rawInput = .error d →
      executeTool searchMemory createNote name rawInput =
        ⟨.error ⟨.schemaValidation, some d⟩, 0⟩) := by
  unfold executeTool toolMapLookup toolNameOk
  by_cases h1 : name = "search_memory"
  · subst h1
    refine ⟨by simp, by simp, ?_⟩
    intro tool d htool hval
    have ht : searchMemory = tool := by simpa using htool
    subst ht
    simp [hval]
  · by_cases h2 : name = "create_note"
    · subst h2
      refine ⟨by simp, by simp, ?_⟩
      intro tool d htool hval
      have ht : createNote = tool := by simpa [h1] using htool
      subst ht
      simp [hval, h1]
    · refine ⟨fun _ => by simp [h1, h2], by simp [h1, h2], ?_⟩
      intro tool d htool
      rw [if_neg h1, if_neg h2] at htool
      exact absurd htool (by simp)

/-- Witness for C7: the unknown name `nope` fails with `InvalidRequest`,
and `search_memory` with input rejected by its validator fails with
`SchemaValidationError` carrying the diagnostic — zero handler runs in
both cases. -/
theorem executeTool_validation_spec_witness :
    (toolNameOk "nope" = false ∧
      executeTool failValTool okTool "nope" () =
        ⟨.error ⟨.invalidRequest, none⟩, 0⟩) ∧
    (toolMapLookup failValTool okTool "search_memory" = some failValTool ∧
      failValTool.validate () = .error "bad" ∧
      executeTool failValTool okTool "search_memory" () =
        ⟨.error ⟨.schemaValidation, some "bad"⟩, 0⟩) :=
  ⟨⟨rfl, (executeTool_validation_spec failValTool okTool "nope" ()).1 rfl⟩,
    ⟨rfl, rfl,
      (executeTool_validation_spec failValTool okTool "search_memory" ()).2.2
        failValTool "bad" rfl rfl⟩⟩

/-! ### C10 — per-candidate link-fetch failure tolerance -/

/-- Claim C10 (confirmed): when the link queries throw for one FTS
candidate, that candidate goes through enhancement unchanged (same score,
no link list attached) and is still present in the final result list of
the same length — the search as a whole does not fail. -/
theorem enhance_fetchFailure_keeps (db : LinksDb) (ftsResults : List SearchRow)
    (r : SearchRow) (hr : r ∈ ftsResults) (hfail : db.linkFetchFails r.id = true) :
    enhanceOne db r = r ∧ r ∈ searchRerank db ftsResults ∧
      (searchRerank db ftsResults).length = ftsResults.length := by
  have h1 : enhanceOne db r = r := by
    unfold enhanceOne
    rw [hfail]
    simp
  refine ⟨h1, ?_, ?_⟩
  · have hmem : r ∈ enhanceWithLinkData db ftsResults := by
      unfold enhanceWithLinkData
      exact h1 ▸ List.mem_map_of_mem (enhanceOne db) hr
    exact ((List.perm_insertionSort rerankLe _).mem_iff).mpr hmem
  · unfold searchRerank rerankResults enhanceWithLinkData
    rw [(List.perm_insertionSort rerankLe _).length_eq, List.length_map]

/-- Witness for C10 on a concrete database whose queries throw for note
`f`. -/
theorem enhance_fetchFailure_keeps_witness :
    ((⟨"f", 1, none⟩ : SearchRow) ∈ ([⟨"f", 1, none⟩] : List SearchRow) ∧
      failFetchDb.linkFetchFails "f" = true) ∧
    (enhanceOne failFetchDb ⟨"f", 1, none⟩ = ⟨"f", 1, none⟩ ∧
      (⟨"f", 1, none⟩ : SearchRow) ∈ searchRerank failFetchDb [⟨"f", 1, none⟩] ∧
      (searchRerank failFetchDb [⟨"f", 1, none⟩]).length =
        ([⟨"f", 1, none⟩] : List SearchRow).length) :=
  ⟨⟨List.mem_singleton.mpr rfl, by decide⟩,
    enhance_fetchFailure_keeps failFetchDb [⟨"f", 1, none⟩] ⟨"f", 1, none⟩
      (List.mem_singleton.mpr rfl) (by decide)⟩

/-! ### C4 — traversal at depth 0 -/

/-- Unfolding equation of the loop at fuel 0. -/
theorem bfsLoop_zero (db : LinksDb) (dir : BfsDirection) (depth limit : ℕ)
    (st : BfsState) : bfsLoop db dir depth limit 0 st = st.result := rfl

/-- Unfolding equation of one loop iteration on a non-empty queue. -/
theorem bfsLoop_succ_cons (db : LinksDb) (dir : BfsDirection) (depth limit : ℕ)
    (fuel : ℕ) (v : List String) (res : List GNode) (e : QEntry) (rest : List QEntry) :
    bfsLoop db dir depth limit (fuel + 1) ⟨v, res, e :: rest⟩ =
      if limit ≤ res.length then res
      else if depth ≤ e.currentDepth then
        bfsLoop db dir depth limit fuel ⟨v, res, rest⟩
      else
        bfsLoop db dir depth limit fuel
          ((getConnectedUids db dir e.uid).foldl (expandChild db depth e)
            ⟨v, res, rest⟩) := rfl

/-- The loop returns the collected results as soon as the queue is empty. -/
theorem bfsLoop_queue_nil (db : LinksDb) (dir : BfsDirection) (depth limit : ℕ)
    (fuel : ℕ) (st : BfsState) (h : st.queue = []) :
    bfsLoop db dir depth limit fuel st = st.result := by
  cases fuel with
  | zero => rfl
  | succ f =>
    unfold bfsLoop
    rw [h]

/-- With `depth = 0` the start entry is popped and immediately skipped
(`currentDepth >= depth`), so the traversal returns no nodes at all. -/
theorem findConnected_depth_zero_aux (db : LinksDb) (startUid : String)
    (limit : ℕ) (dir : BfsDirection) :
    findConnectedNotes db startUid 0 limit dir = [] := by
  have h : bfsLoop db dir 0 limit (1 + 2 * db.links.length)
      ⟨[startUid], [], [⟨startUid, 0, 1⟩]⟩ = [] := by
    rw [show 1 + 2 * db.links.length = (2 * db.links.length) + 1 by omega]
    rw [bfsLoop_succ_cons]
    simp only [List.length_nil]
    by_cases hl : limit ≤ 0
    · rw [if_pos hl]
    · rw [if_neg hl, if_pos (Nat.zero_le _)]
      exact bfsLoop_queue_nil db dir 0 limit (2 * db.links.length)
        ⟨[startUid], [], []⟩ rfl
  show (List.insertionSort nodeLe (bfsLoop db dir 0 limit (1 + 2 * db.links.length)
    ⟨[startUid], [], [⟨startUid, 0, 1⟩]⟩)).take limit = []
  rw [h]
  rw [show List.insertionSort nodeLe ([] : List GNode) = [] from rfl]
  exact List.take_nil ..

/-- Claim C4 (amended): the traversal with `depth = 0` returns the empty
list — the start node itself is never part of the result set, with any
score or depth. -/
theorem findConnectedNotes_depth_zero (db : LinksDb) (startUid : String)
    (limit : ℕ) (dir : BfsDirection) :
    findConnectedNotes db startUid 0 limit dir = [] :=
  findConnected_depth_zero_aux db startUid limit dir

/-- Claim C4, counterexample: on a concrete graph whose start note exists
in the index, the depth-0 traversal returns zero nodes instead of the
claimed single start node with score 1 and depth 0. -/
theorem findConnectedNotes_depth_zero_cex :
    chainDb.hasNote "a" = true ∧
    (findConnectedNotes chainDb "a" 0 100 .both).length = 0 := by
  constructor
  · rfl
  · rw [findConnected_depth_zero_aux]
    rfl

/-! ### C9 — UID length counterexample -/

/-- Claim C9, counterexample: a generated UID has 22 characters, not 24
(`YYYYMMDD` + `T` + `HHMMSS` + 6 counter digits + `Z` is 22). -/
theorem generateUid_length_cex :
    (generateUid sampleTime 0).1.length = 22 ∧
    (generateUid sampleTime 0).1.length ≠ 24 := by
  decide

/-! ### Decimal-string order machinery for the UID claims -/

/-- A padded field always renders to exactly its width. -/
theorem natPad_length (w : ℕ) : ∀ n : ℕ, (natPad w n).length = w := by
  induction w with
  | zero => intro n; rfl
  | succ w ih => intro n; simp [natPad, ih]

/-- Digit characters of digits are decimal digits. -/
theorem digitChar_isDigit (d : ℕ) (h : d < 10) : (Nat.digitChar d).isDigit = true := by
  interval_cases d <;> decide

/-- Digit characters are ordered like their digits. -/
theorem digitChar_lt (a b : ℕ) (ha : a < 10) (hb : b < 10) (h : a < b) :
    Nat.digitChar a < Nat.digitChar b := by
  interval_cases a <;> interval_cases b <;> revert h <;> decide

/-- All characters of an in-range padded field are digits. -/
theorem natPad_isDigit (w : ℕ) : ∀ n : ℕ, n < 10 ^ w →
    ∀ ch ∈ natPad w n, ch.isDigit = true := by
  induction w with
  | zero => intro n _ ch hch; cases hch
  | succ w ih =>
    intro n hn ch hch
    rw [natPad] at hch
    rcases List.mem_cons.mp hch with h | h
    · have hd : n / 10 ^ w < 10 := by
        rw [Nat.div_lt_iff_lt_mul (Nat.pos_pow_of_pos w (by norm_num))]
        calc n < 10 ^ (w + 1) := hn
          _ = 10 * 10 ^ w := by ring
      exact h ▸ digitChar_isDigit _ hd
    · exact ih (n % 10 ^ w) (Nat.mod_lt _ (Nat.pos_pow_of_pos w (by norm_num))) ch h

/-- Padded decimal strings of a common width order like their values. -/
theorem natPad_lex_lt (w : ℕ) : ∀ n m : ℕ, n < m → m < 10 ^ w →
    List.Lex (· < ·) (natPad w n) (natPad w m) := by
  induction w with
  | zero =>
    intro n m hnm hm
    exact absurd hnm (by omega)
  | succ w ih =>
    intro n m hnm hm
    have hpos : 0 < 10 ^ w := Nat.pos_pow_of_pos w (by norm_num)
    have hm10 : m / 10 ^ w < 10 := by
      rw [Nat.div_lt_iff_lt_mul hpos]
      calc m < 10 ^ (w + 1) := hm
        _ = 10 * 10 ^ w := by ring
    have hdle : n / 10 ^ w ≤ m / 10 ^ w :=
      Nat.div_le_div_right (Nat.le_of_lt hnm)
    rw [natPad, natPad]
    rcases Nat.lt_or_ge (n / 10 ^ w) (m / 10 ^ w) with hlt | hge
    · exact List.Lex.rel (digitChar_lt _ _ (lt_of_le_of_lt hdle hm10) hm10 hlt)
    · have heq : n / 10 ^ w = m / 10 ^ w := le_antisymm hdle hge
      rw [heq]
      refine List.Lex.cons (ih _ _ ?_ (Nat.mod_lt _ hpos))
      have h₁ := Nat.div_add_mod n (10 ^ w)
      have h₂ := Nat.div_add_mod m (10 ^ w)
      rw [heq] at h₁
      omega

/-- Prepending a common prefix preserves lexicographic order. -/
theorem lex_append_left (r : Char → Char → Prop) (p : List Char)
    {a b : List Char} (h : List.Lex r a b) : List.Lex r (p ++ a) (p ++ b) := by
  induction p with
  | nil => exact h
  | cons c cs ih => exact List.Lex.cons ih

/-- Lexicographic order between equal-length lists survives arbitrary
suffixes. -/
theorem lex_append_both (r : Char → Char → Prop) :
    ∀ {a b : List Char}, List.Lex r a b → a.length = b.length →
    ∀ x y : List Char, List.Lex r (a ++ x) (b ++ y) := by
  intro a b h
  induction h with
  | nil => intro hlen; exact absurd hlen (by simp)
  | rel hr => intro _ x y; exact List.Lex.rel hr
  | cons h ih =>
    intro hlen x y
    exact List.Lex.cons (ih (by simpa using hlen) x y)

/-- The UID strings order as the combined numeric key
`key * 10^6 + uniqueId` does, for well-formed fields. -/
theorem uid_string_lt (t₁ t₂ : UidTime) (u₁ u₂ : ℕ)
    (h₁ : t₁.wf) (h₂ : t₂.wf) (hu₁ : u₁ < 1000000) (hu₂ : u₂ < 1000000)
    (hk : t₁.key * 1000000 + u₁ < t₂.key * 1000000 + u₂) :
    uidStr t₁ u₁ < uidStr t₂ u₂ := by
  obtain ⟨hy₁, hy₁', hmo₁, hd₁, hhh₁, hmi₁, hs₁, _⟩ := h₁
  obtain ⟨hy₂, hy₂', hmo₂, hd₂, hhh₂, hmi₂, hs₂, _⟩ := h₂
  simp only [UidTime.key] at hk
  rw [uidStr, uidStr, String.lt_iff_toList_lt]
  show List.Lex (· < ·) (uidChars t₁ u₁) (uidChars t₂ u₂)
  unfold uidChars
  rcases Nat.lt_trichotomy t₁.year t₂.year with hy | hy | hy
  · exact lex_append_both _ (natPad_lex_lt 4 _ _ hy (by omega))
      (by rw [natPad_length, natPad_length]) _ _
  · rw [hy]
    refine lex_append_left _ (natPad 4 t₂.year) ?_
    rcases Nat.lt_trichotomy t₁.month t₂.month with hmo | hmo | hmo
    · exact lex_append_both _ (natPad_lex_lt 2 _ _ hmo (by omega))
        (by rw [natPad_length, natPad_length]) _ _
    · rw [hmo]
      refine lex_append_left _ (natPad 2 t₂.month) ?_
      rcases Nat.lt_trichotomy t₁.day t₂.day with hd | hd | hd
      · exact lex_append_both _ (natPad_lex_lt 2 _ _ hd (by omega))
          (by rw [natPad_length, natPad_length]) _ _
      · rw [hd]
        refine lex_append_left _ (natPad 2 t₂.day) ?_
        refine List.Lex.cons ?_
        rcases Nat.lt_trichotomy t₁.hour t₂.hour with hh | hh | hh
        · exact lex_append_both _ (natPad_lex_lt 2 _ _ hh (by omega))
            (by rw [natPad_length, natPad_length]) _ _
        · rw [hh]
          refine lex_append_left _ (natPad 2 t₂.hour) ?_
          rcases Nat.lt_trichotomy t₁.minute t₂.minute with hmi | hmi | hmi
          · exact lex_append_both _ (natPad_lex_lt 2 _ _ hmi (by omega))
              (by rw [natPad_length, natPad_length]) _ _
          · rw [hmi]
            refine lex_append_left _ (natPad 2 t₂.minute) ?_
            rcases Nat.lt_trichotomy t₁.second t₂.second with hs | hs | hs
            · exact lex_append_both _ (natPad_lex_lt 2 _ _ hs (by omega))
                (by rw [natPad_length, natPad_length]) _ _
            · rw [hs]
              refine lex_append_left _ (natPad 2 t₂.second) ?_
              have hu : u₁ < u₂ := by omega
              exact lex_append_both _ (natPad_lex_lt 6 _ _ hu (by omega))
                (by rw [natPad_length, natPad_length]) _ _
            · exact absurd hk (by omega)
          · exact absurd hk (by omega)
        · exact absurd hk (by omega)
      · exact absurd hk (by omega)
    · exact absurd hk (by omega)
  · exact absurd hk (by omega)

/-- One well-behaved step of `generateUid` strictly increases the UID. -/
theorem generateUid_step_lt (t₁ t₂ : UidTime) (c : ℕ)
    (h₁ : t₁.wf) (h₂ : t₂.wf) (hle : t₁.keyMs ≤ t₂.keyMs)
    (hwrap : (c + 1) % 1000 = 999 → t₁.keyMs < t₂.keyMs) :
    (generateUid t₁ c).1 < (generateUid t₂ (generateUid t₁ c).2).1 := by
  unfold generateUid
  dsimp only
  set c₁ := (c + 1) % 1000 with hc₁
  set c₂ := (c₁ + 1) % 1000 with hc₂
  have hc₁lt : c₁ < 1000 := Nat.mod_lt _ (by norm_num)
  have hc₂lt : c₂ < 1000 := Nat.mod_lt _ (by norm_num)
  have hms₁ : t₁.ms < 1000 := h₁.2.2.2.2.2.2.2
  have hms₂ : t₂.ms < 1000 := h₂.2.2.2.2.2.2.2
  apply uid_string_lt _ _ _ _ h₁ h₂ (by omega) (by omega)
  unfold UidTime.keyMs at hle hwrap
  by_cases hc : c₁ = 999
  · have hstrict := hwrap (hc₁ ▸ hc)
    unfold UidTime.keyMs at hstrict
    have : c₂ = 0 := by rw [hc₂, hc]
    omega
  · have : c₂ = c₁ + 1 := by
      rw [hc₂]
      exact Nat.mod_eq_of_lt (by omega)
    omega

/-- The head of a well-behaved run has well-formed fields. -/
theorem uidRunOkB_head_wf (c : ℕ) (t : UidTime) (ts : List UidTime)
    (h : uidRunOkB c (t :: ts) = true) : t.wf := by
  cases ts with
  | nil => simpa [uidRunOkB] using h
  | cons t' ts' =>
    rw [uidRunOkB] at h
    simp only [Bool.and_eq_true, decide_eq_true_eq] at h
    exact h.1.1.1

/-- Claim C3 (amended): within a process, consecutive `generateUid`
results are strictly increasing — and hence pairwise distinct over any
number of calls — provided the clock reading never decreases between
calls and, whenever the 1000-cycle micro-counter wraps around (every
1000th call), the clock's millisecond reading has strictly advanced.
Without that proviso the counterexample shows both parts fail. -/
theorem uidRun_strictMono (c : ℕ) (ts : List UidTime)
    (hok : uidRunOkB c ts = true) :
    List.Chain' (· < ·) (uidRun c ts) ∧
      List.Pairwise (· ≠ ·) (uidRun c ts) := by
  have hchain : List.Chain' (· < ·) (uidRun c ts) := by
    induction ts generalizing c with
    | nil => simp [uidRun]
    | cons t₁ ts' ih =>
      cases ts' with
      | nil => simp [uidRun]
      | cons t₂ ts'' =>
        rw [uidRunOkB] at hok
        simp only [Bool.and_eq_true, decide_eq_true_eq] at hok
        obtain ⟨⟨⟨hwf₁, hle⟩, hwrap⟩, hrest⟩ := hok
        have hwf₂ : t₂.wf := uidRunOkB_head_wf _ _ _ hrest
        rw [uidRun, uidRun]
        refine List.chain'_cons.mpr ⟨?_, ?_⟩
        · refine generateUid_step_lt t₁ t₂ c hwf₁ hwf₂ hle ?_
          intro hw
          have := hwrap
          rw [if_pos hw] at this
          simpa using this
        · have := ih ((generateUid t₁ c).2) hrest
          rw [uidRun] at this
          exact this
  refine ⟨hchain, ?_⟩
  have hpair : List.Pairwise (· < ·) (uidRun c ts) :=
    List.chain'_iff_pairwise.mp hchain
  exact hpair.imp ne_of_lt

/-- Witness for C3 on a two-call run one millisecond apart. -/
theorem uidRun_strictMono_witness :
    uidRunOkB 0 [sampleTime, sampleTimeNext] = true ∧
    (List.Chain' (· < ·) (uidRun 0 [sampleTime, sampleTimeNext]) ∧
      List.Pairwise (· ≠ ·) (uidRun 0 [sampleTime, sampleTimeNext])) :=
  ⟨by decide, uidRun_strictMono 0 [sampleTime, sampleTimeNext] (by decide)⟩

/-- Claim C3, counterexample: two calls within the same millisecond while
the counter wraps from 999 to 0 produce a strictly *smaller* second UID,
so the returned values are not strictly increasing. -/
theorem uidRun_monotone_cex :
    ¬ List.Chain' (· < ·) (uidRun 998 [sampleTime, sampleTime]) := by
  intro h
  have heq : uidRun 998 [sampleTime, sampleTime] =
      [uidStr sampleTime 6999, uidStr sampleTime 6000] := rfl
  rw [heq] at h
  have hlt : uidStr sampleTime 6999 < uidStr sampleTime 6000 :=
    (List.chain'_cons.mp h).1
  have hgt : uidStr sampleTime 6000 < uidStr sampleTime 6999 :=
    uid_string_lt sampleTime sampleTime 6000 6999 (by decide) (by decide)
      (by norm_num) (by norm_num) (by norm_num [UidTime.key, sampleTime])
  exact lt_asymm hgt hlt

/-- Claim C9 (amended): every generated UID is exactly 22 characters of
the form `YYYYMMDD` + `'T'` + `HHMMSS` + six micro-counter digits +
`'Z'`. -/
theorem generateUid_format (t : UidTime) (c : ℕ) (hwf : t.wf) :
    (generateUid t c).1.length = 22 ∧
    ∃ ymd hms mic : List Char,
      (generateUid t c).1.data = ymd ++ ['T'] ++ hms ++ mic ++ ['Z'] ∧
      ymd = natPad 4 t.year ++ natPad 2 t.month ++ natPad 2 t.day ∧
      hms = natPad 2 t.hour ++ natPad 2 t.minute ++ natPad 2 t.second ∧
      ymd.length = 8 ∧ hms.length = 6 ∧ mic.length = 6 ∧
      (∀ ch ∈ ymd, ch.isDigit = true) ∧ (∀ ch ∈ hms, ch.isDigit = true) ∧
      (∀ ch ∈ mic, ch.isDigit = true) := by
  obtain ⟨hy, hy', hmo, hd, hh, hmi, hs, hms⟩ := hwf
  have hu : t.ms * 1000 + (c + 1) % 1000 < 1000000 := by
    have := Nat.mod_lt (c + 1) (y := 1000) (by norm_num)
    omega
  constructor
  · show (uidChars t (t.ms * 1000 + (c + 1) % 1000)).length = 22
    unfold uidChars
    simp [natPad_length]
  · refine ⟨natPad 4 t.year ++ natPad 2 t.month ++ natPad 2 t.day,
      natPad 2 t.hour ++ natPad 2 t.minute ++ natPad 2 t.second,
      natPad 6 (t.ms * 1000 + (c + 1) % 1000), ?_, rfl, rfl, ?_, ?_, ?_, ?_, ?_, ?_⟩
    · show uidChars t (t.ms * 1000 + (c + 1) % 1000) = _
      unfold uidChars
      simp [List.append_assoc]
    · simp [natPad_length]
    · simp [natPad_length]
    · simp [natPad_length]
    · intro ch hch
      rcases List.mem_append.mp hch with hch | hch
      · rcases List.mem_append.mp hch with hch | hch
        · exact natPad_isDigit 4 t.year (by omega) ch hch
        · exact natPad_isDigit 2 t.month (by omega) ch hch
      · exact natPad_isDigit 2 t.day (by omega) ch hch
    · intro ch hch
      rcases List.mem_append.mp hch with hch | hch
      · rcases List.mem_append.mp hch with hch | hch
        · exact natPad_isDigit 2 t.hour (by omega) ch hch
        · exact natPad_isDigit 2 t.minute (by omega) ch hch
      · exact natPad_isDigit 2 t.second (by omega) ch hch
    · intro ch hch
      exact natPad_isDigit 6 _ hu ch hch

/-- Witness for C9 at a concrete clock reading. -/
theorem generateUid_format_witness :
    (sampleTime.wf : Prop) ∧ (generateUid sampleTime 0).1.length = 22 :=
  ⟨by decide, (generateUid_format sampleTime 0 (by decide)).1⟩

/-! ### C1 — hybrid scoring and reranking -/

/-- Claim C1, counterexample: two candidates `y` and `x` with equal FTS
scores whose combined scores also tie (both link scores saturate on the
ten fetched links), where `x` has twelve outbound links and `y` eleven.
The source breaks the tie on the *attached* link count (10 vs 10, a tie,
so the FTS order `y` before `x` survives), so the output is not sorted by
the full outbound-link count descending as the claim states. -/
theorem searchRerank_tiebreak_cex :
    ¬ List.Sorted (claimTieLe tieDb) (searchRerank tieDb tieRows) := by
  intro h
  have hids : (searchRerank tieDb tieRows).map (fun r => (r.id, r.score)) =
      [("y", (1 : ℚ) / 2), ("x", (1 : ℚ) / 2)] := by decide
  match hout : searchRerank tieDb tieRows with
  | [] => rw [hout] at hids; simp at hids
  | [a] => rw [hout] at hids; simp at hids
  | a :: b :: rest =>
    rw [hout] at h hids
    have hab : claimTieLe tieDb a b := (List.pairwise_cons.mp h).1 b (by simp)
    simp only [List.map_cons, List.cons.injEq, Prod.mk.injEq] at hids
    obtain ⟨⟨ha₁, ha₂⟩, ⟨hb₁, hb₂⟩, _⟩ := hids
    rcases hab with hlt | ⟨_, hcnt⟩
    · rw [ha₂, hb₂] at hlt
      exact absurd hlt (by norm_num)
    · rw [ha₁, hb₁] at hcnt
      exact absurd hcnt (by decide)

/-- Claim C1 (amended): on a query whose candidates all have working link
queries, the hybrid search returns a permutation of the enhanced
candidates, sorted by combined score descending with ties broken by the
number of *attached* outbound links (the fetched list, capped at 10)
descending; each candidate's combined score is
`0.7 · fts + 0.3 · min((2·Σ backlink strengths + Σ outbound strengths)/20, 1)`
over at most ten backlinks and ten outbound links. -/
theorem searchRerank_spec (db : LinksDb) (ftsResults : List SearchRow)
    (hok : ∀ r ∈ ftsResults, db.linkFetchFails r.id = false) :
    (searchRerank db ftsResults).Perm (ftsResults.map (enhanceOne db)) ∧
    List.Sorted rerankLe (searchRerank db ftsResults) ∧
    ∀ r ∈ ftsResults, enhanceOne db r =
      { id := r.id
        links := some ((findOutboundLinks db r.id 10).map (fun l => l.targetUid))
        score := r.score * (7 / 10) +
          (min ((2 * ((findBacklinks db r.id 10).map (fun l => (l.strength : ℚ))).sum +
            ((findOutboundLinks db r.id 10).map (fun l => (l.strength : ℚ))).sum) / 20) 1) *
            (3 / 10) } := by
  refine ⟨?_, ?_, ?_⟩
  · exact List.perm_insertionSort rerankLe _
  · exact List.sorted_insertionSort rerankLe _
  · intro r hr
    unfold enhanceOne
    rw [hok r hr]
    simp only [Bool.false_eq_true, if_false]
    unfold combineScores calculateLinkScore
    have hmul : ((findBacklinks db r.id 10).map (fun l => (l.strength : ℚ))).sum * 2 =
        2 * ((findBacklinks db r.id 10).map (fun l => (l.strength : ℚ))).sum :=
      mul_comm _ _
    rw [hmul]

/-- Witness for C1 on the chain database, with one candidate. -/
theorem searchRerank_spec_witness :
    (∀ r ∈ ([⟨"a", 1 / 2, none⟩] : List SearchRow),
      chainDb.linkFetchFails r.id = false) ∧
    ((searchRerank chainDb [⟨"a", 1 / 2, none⟩]).Perm
      (([⟨"a", 1 / 2, none⟩] : List SearchRow).map (enhanceOne chainDb)) ∧
    List.Sorted rerankLe (searchRerank chainDb [⟨"a", 1 / 2, none⟩]) ∧
    ∀ r ∈ ([⟨"a", 1 / 2, none⟩] : List SearchRow), enhanceOne chainDb r =
      { id := r.id
        links := some ((findOutboundLinks chainDb r.id 10).map (fun l => l.targetUid))
        score := r.score * (7 / 10) +
          (min ((2 * ((findBacklinks chainDb r.id 10).map (fun l => (l.strength : ℚ))).sum +
            ((findOutboundLinks chainDb r.id 10).map (fun l => (l.strength : ℚ))).sum) / 20) 1) *
            (3 / 10) }) :=
  ⟨by decide, searchRerank_spec chainDb [⟨"a", 1 / 2, none⟩] (by decide)⟩

/-! ### C8 — depth monotonicity of the traversal

The two runs at depths `dep` and `dep + 1` are related by a simulation:
they share visited set and collected results, the deeper run's queue
extends the shallower run's by entries at depth exactly `dep`, and the
extra result nodes the deeper run collects all sit at depth `dep + 1`
with a strictly smaller score — so they sort after everything the
shallower run collected and the final `take limit` keeps every shallower
node. -/

/-- One iteration of the loop, phrased for an abstract state with a
non-empty queue. -/
theorem bfsLoop_succ_eq (db : LinksDb) (dir : BfsDirection) (depth limit fuel : ℕ)
    (st : BfsState) (e : QEntry) (rest : List QEntry) (h : st.queue = e :: rest) :
    bfsLoop db dir depth limit (fuel + 1) st =
      if limit ≤ st.result.length then st.result
      else if depth ≤ e.currentDepth then
        bfsLoop db dir depth limit fuel ⟨st.visited, st.result, rest⟩
      else
        bfsLoop db dir depth limit fuel
          ((getConnectedUids db dir e.uid).foldl (expandChild db depth e)
            ⟨st.visited, st.result, rest⟩) := by
  obtain ⟨v, res, q⟩ := st
  cases h
  rfl

/-- Characterization of the inner expansion fold: the visited set grows
by the fresh UIDs, the fresh noted UIDs are appended to the results, and
they are enqueued exactly when the next depth is still below the bound. -/
theorem expand_foldl_eq (db : LinksDb) (depth : ℕ) (p : QEntry) :
    ∀ (us : List String) (v : List String) (res : List GNode) (q : List QEntry),
    us.foldl (expandChild db depth p) ⟨v, res, q⟩ =
      ⟨visitAfter v us,
        res ++ newNodes db p.currentDepth p.score v us,
        q ++ (if p.currentDepth + 1 < depth then
          (newNodes db p.currentDepth p.score v us).map
            (fun n => ⟨n.uid, p.currentDepth + 1, n.score⟩) else [])⟩ := by
  intro us
  induction us with
  | nil =>
    intro v res q
    simp [visitAfter, newNodes]
  | cons u us ih =>
    intro v res q
    rw [List.foldl_cons]
    by_cases hv : u ∈ v
    · have hstep : expandChild db depth p ⟨v, res, q⟩ u = ⟨v, res, q⟩ := by
        unfold expandChild
        rw [if_pos hv]
      rw [hstep, ih]
      rw [visitAfter, if_pos hv]
      rw [show newNodes db p.currentDepth p.score v (u :: us) =
        newNodes db p.currentDepth p.score v us from by rw [newNodes, if_pos hv]]
    · by_cases hn : db.hasNote u
      · have hstep : expandChild db depth p ⟨v, res, q⟩ u =
            ⟨u :: v,
              res ++ [⟨u, p.score * (7 / 10 : ℚ) ^ p.currentDepth, p.currentDepth + 1⟩],
              q ++ (if p.currentDepth + 1 < depth then
                [⟨u, p.currentDepth + 1, p.score * (7 / 10 : ℚ) ^ p.currentDepth⟩]
                else [])⟩ := by
          unfold expandChild
          rw [if_neg hv]
          simp only [hn, if_true]
          by_cases hd : p.currentDepth + 1 < depth
          · rw [if_pos hd, if_pos hd]
          · rw [if_neg hd, if_neg hd, List.append_nil]
        rw [hstep, ih]
        rw [visitAfter, if_neg hv]
        rw [show newNodes db p.currentDepth p.score v (u :: us) =
          ⟨u, p.score * (7 / 10 : ℚ) ^ p.currentDepth, p.currentDepth + 1⟩ ::
            newNodes db p.currentDepth p.score (u :: v) us from by
          rw [newNodes, if_neg hv, if_pos hn]]
        by_cases hd : p.currentDepth + 1 < depth
        · simp [hd, List.append_assoc]
        · simp [hd]
      · have hstep : expandChild db depth p ⟨v, res, q⟩ u = ⟨u :: v, res, q⟩ := by
          unfold expandChild
          rw [if_neg hv]
          simp only [hn, Bool.false_eq_true, if_false]
        rw [hstep, ih]
        rw [visitAfter, if_neg hv]
        rw [show newNodes db p.currentDepth p.score v (u :: us) =
          newNodes db p.currentDepth p.score (u :: v) us from by
          rw [newNodes, if_neg hv, if_neg (by simp [hn])]]

/-- Every node recorded by one expansion has the popped entry's successor
depth and the propagated score. -/
theorem newNodes_mem (db : LinksDb) (pd : ℕ) (ps : ℚ) :
    ∀ (us : List String) (v : List String) (n : GNode),
    n ∈ newNodes db pd ps v us →
    n.depth = pd + 1 ∧ n.score = ps * (7 / 10 : ℚ) ^ pd := by
  intro us
  induction us with
  | nil => intro v n hn; cases hn
  | cons u us ih =>
    intro v n hn
    rw [newNodes] at hn
    by_cases hv : u ∈ v
    · rw [if_pos hv] at hn
      exact ih v n hn
    · rw [if_neg hv] at hn
      by_cases hu : db.hasNote u
      · rw [if_pos hu] at hn
        rcases List.mem_cons.mp hn with h | h
        · rw [h]
          exact ⟨rfl, rfl⟩
        · exact ih (u :: v) n h
      · rw [if_neg (by simp [hu])] at hn
        exact ih (u :: v) n hn

/-- Layer scores are positive. -/
theorem layerScore_pos (d : ℕ) : 0 < layerScore d := by
  induction d with
  | zero => norm_num [layerScore]
  | succ d ih =>
    rw [layerScore]
    positivity

/-- From depth 1 on, layer scores strictly decrease. -/
theorem layerScore_succ_lt (d : ℕ) (hd : 1 ≤ d) : layerScore (d + 1) < layerScore d := by
  rw [layerScore]
  have hpow : ((7 : ℚ) / 10) ^ d < 1 :=
    pow_lt_one₀ (by norm_num) (by norm_num) (by omega)
  exact mul_lt_of_lt_one_right (layerScore_pos d) hpow

/-- Layer scores are strictly antitone past depth 1. -/
theorem layerScore_lt_of_lt (d d' : ℕ) (h1 : 1 ≤ d) (h : d < d') :
    layerScore d' < layerScore d := by
  induction d' with
  | zero => omega
  | succ e ih =>
    rcases Nat.lt_or_ge d e with he | he
    · exact lt_trans (layerScore_succ_lt e (by omega)) (ih he)
    · have : d = e := by omega
      subst this
      exact layerScore_succ_lt d h1

/-- Dropping the head preserves the queue layering invariant. -/
theorem queueOk_tail (e : QEntry) (rest : List QEntry) (h : QueueOk (e :: rest)) :
    QueueOk rest := by
  obtain ⟨hpw, hwin⟩ := h
  exact ⟨(List.pairwise_cons.mp hpw).2,
    fun a ha b hb => hwin a (List.mem_cons_of_mem _ ha) b (List.mem_cons_of_mem _ hb)⟩

/-- Popping the head and enqueueing entries one level deeper preserves
the queue layering invariant. -/
theorem queueOk_step (e : QEntry) (rest news : List QEntry) (hq : QueueOk (e :: rest))
    (hnews : ∀ x ∈ news, x.currentDepth = e.currentDepth + 1) :
    QueueOk (rest ++ news) := by
  obtain ⟨hpw, hwin⟩ := hq
  have hhead := (List.pairwise_cons.mp hpw).1
  have hpwrest := (List.pairwise_cons.mp hpw).2
  constructor
  · rw [List.pairwise_append]
    refine ⟨hpwrest, ?_, ?_⟩
    · exact List.pairwise_of_forall_mem_list fun a ha b hb => by
        rw [hnews a ha, hnews b hb]
    · intro a ha b hb
      have h1 := hwin a (List.mem_cons_of_mem _ ha) e (List.mem_cons_self _ _)
      rw [hnews b hb]
      omega
  · intro a ha b hb
    rcases List.mem_append.mp ha with ha' | ha' <;>
      rcases List.mem_append.mp hb with hb' | hb'
    · exact hwin a (List.mem_cons_of_mem _ ha') b (List.mem_cons_of_mem _ hb')
    · have h1 := hwin a (List.mem_cons_of_mem _ ha') e (List.mem_cons_self _ _)
      rw [hnews b hb']
      omega
    · have h1 := hhead b hb'
      rw [hnews a ha']
      omega
    · rw [hnews a ha', hnews b hb']
      omega

/-- Running the depth-`dep + 1` loop on a queue consisting solely of
depth-`dep` entries (each carrying the layer score) appends only nodes of
depth `dep + 1` with the layer score of depth `dep + 1`; and it appends
anything at all only while the result list is below the limit. -/
theorem bfs_tail (db : LinksDb) (dir : BfsDirection) (limit dep : ℕ) :
    ∀ (fuel : ℕ) (st : BfsState),
    (∀ e ∈ st.queue, e.currentDepth = dep ∧ e.score = layerScore dep) →
    ∃ ext, bfsLoop db dir (dep + 1) limit fuel st = st.result ++ ext ∧
      (∀ n ∈ ext, n.depth = dep + 1 ∧ n.score = layerScore (dep + 1)) ∧
      (ext ≠ [] → st.result.length < limit) := by
  intro fuel
  induction fuel with
  | zero =>
    intro st hq
    exact ⟨[], by simp [bfsLoop_zero], by simp, by simp⟩
  | succ f ih =>
    intro st hq
    match hqe : st.queue with
    | [] =>
      exact ⟨[], by simp [bfsLoop_queue_nil db dir _ _ _ st hqe], by simp, by simp⟩
    | e :: rest =>
      rw [bfsLoop_succ_eq db dir _ limit f st e rest hqe]
      by_cases hl : limit ≤ st.result.length
      · rw [if_pos hl]
        exact ⟨[], by simp, by simp, by simp⟩
      · rw [if_neg hl]
        have he := hq e (by rw [hqe]; exact List.mem_cons_self _ _)
        rw [if_neg (by omega)]
        rw [expand_foldl_eq]
        rw [if_neg (by omega : ¬ e.currentDepth + 1 < dep + 1), List.append_nil]
        have hq' : ∀ x ∈ (⟨visitAfter st.visited (getConnectedUids db dir e.uid),
            st.result ++ newNodes db e.currentDepth e.score st.visited
              (getConnectedUids db dir e.uid), rest⟩ : BfsState).queue,
            x.currentDepth = dep ∧ x.score = layerScore dep := by
          intro x hx
          exact hq x (by rw [hqe]; exact List.mem_cons_of_mem _ hx)
        obtain ⟨ext, hrun, hprops, hlen⟩ := ih _ hq'
        refine ⟨newNodes db e.currentDepth e.score st.visited
          (getConnectedUids db dir e.uid) ++ ext, ?_, ?_, ?_⟩
        · rw [hrun]
          simp [List.append_assoc]
        · intro n hn
          rcases List.mem_append.mp hn with hn' | hn'
          · obtain ⟨hd, hs⟩ := newNodes_mem db e.currentDepth e.score _ _ n hn'
            constructor
            · rw [hd, he.1]
            · rw [hs, he.2, he.1, layerScore]
          · exact hprops n hn'
        · intro _
          omega

/-- The simulation between a run at depth `dep ≥ 1` and a run at depth
`dep + 1` from invariant-related states: the deeper run returns the
shallower run's results followed by extra depth-`dep + 1` nodes, which
exist only if the shallower run finished below the limit; and every
shallower-run node sits at a depth in `[1, dep]` with its layer score. -/
theorem bfs_sim (db : LinksDb) (dir : BfsDirection) (limit dep : ℕ) (hdep : 1 ≤ dep) :
    ∀ (fuel : ℕ) (st1 st2 : BfsState), BfsInv dep st1 st2 →
    ∃ ext, bfsLoop db dir (dep + 1) limit fuel st2 =
        bfsLoop db dir dep limit fuel st1 ++ ext ∧
      (∀ n ∈ ext, n.depth = dep + 1 ∧ n.score = layerScore (dep + 1)) ∧
      (ext ≠ [] → (bfsLoop db dir dep limit fuel st1).length < limit) ∧
      (∀ n ∈ bfsLoop db dir dep limit fuel st1,
        1 ≤ n.depth ∧ n.depth ≤ dep ∧ n.score = layerScore n.depth) := by
  intro fuel
  induction fuel with
  | zero =>
    intro st1 st2 hinv
    obtain ⟨hv, hr, _, _, _, hrprop⟩ := hinv
    exact ⟨[], by simp [bfsLoop_zero, hr], by simp, by simp,
      by simpa [bfsLoop_zero] using hrprop⟩
  | succ f ih =>
    intro st1 st2 hinv
    obtain ⟨hv, hr, ⟨extras, hq, hex, hexq⟩, hqok, hqprop, hrprop⟩ := hinv
    match hq1 : st1.queue with
    | [] =>
      have h1 : bfsLoop db dir dep limit (f + 1) st1 = st1.result :=
        bfsLoop_queue_nil db dir _ _ _ st1 hq1
      have hq2 : st2.queue = extras := by rw [hq, hq1, List.nil_append]
      obtain ⟨ext, hrun2, hprops, hlen⟩ :=
        bfs_tail db dir limit dep (f + 1) st2 (by rw [hq2]; exact hex)
      refine ⟨ext, ?_, hprops, ?_, ?_⟩
      · rw [h1, hrun2, hr]
      · rw [h1]
        intro hne
        exact hr ▸ hlen hne
      · rw [h1]
        exact hrprop
    | e :: rest =>
      have he := hqprop e (by rw [hq1]; exact List.mem_cons_self _ _)
      rw [hq1] at hqok
      have hq2 : st2.queue = e :: (rest ++ extras) := by
        rw [hq, hq1, List.cons_append]
      rw [bfsLoop_succ_eq db dir dep limit f st1 e rest hq1,
        bfsLoop_succ_eq db dir (dep + 1) limit f st2 e (rest ++ extras) hq2]
      rw [hr, hv]
      by_cases hl : limit ≤ st1.result.length
      · rw [if_pos hl, if_pos hl]
        exact ⟨[], by simp, by simp, by simp, hrprop⟩
      · rw [if_neg hl, if_neg hl]
        rw [if_neg (by omega : ¬ dep ≤ e.currentDepth),
          if_neg (by omega : ¬ dep + 1 ≤ e.currentDepth)]
        rw [expand_foldl_eq, expand_foldl_eq]
        rw [if_pos (by omega : e.currentDepth + 1 < dep + 1)]
        have hnrmem := newNodes_mem db e.currentDepth e.score
          (getConnectedUids db dir e.uid) st1.visited
        by_cases hd : e.currentDepth + 1 < dep
        · have hextras : extras = [] := by
            by_contra hne
            have := hexq hne e (by rw [hq1]; exact List.mem_cons_self _ _)
            omega
          subst hextras
          rw [if_pos hd, List.append_nil]
          apply ih
          refine ⟨rfl, rfl, ⟨[], by simp, by simp, by simp⟩, ?_, ?_, ?_⟩
          · refine queueOk_step e rest _ hqok ?_
            intro x hx
            obtain ⟨n, _, hxn⟩ := List.mem_map.mp hx
            rw [← hxn]
          · intro x hx
            rcases List.mem_append.mp hx with hx' | hx'
            · exact hqprop x (by rw [hq1]; exact List.mem_cons_of_mem _ hx')
            · obtain ⟨n, hn, hxn⟩ := List.mem_map.mp hx'
              obtain ⟨_, hns⟩ := hnrmem n hn
              rw [← hxn]
              refine ⟨?_, ?_⟩
              · show e.currentDepth + 1 < dep
                omega
              · show n.score = layerScore (e.currentDepth + 1)
                rw [hns, he.2, layerScore]
          · intro n hn
            rcases List.mem_append.mp hn with hn' | hn'
            · exact hrprop n hn'
            · obtain ⟨hnd, hns⟩ := hnrmem n hn'
              refine ⟨by omega, by omega, ?_⟩
              rw [hnd, hns, he.2, layerScore]
        · have hde : e.currentDepth + 1 = dep := by omega
          rw [if_neg hd, List.append_nil]
          apply ih
          refine ⟨rfl, rfl, ⟨extras ++ (newNodes db e.currentDepth e.score st1.visited
            (getConnectedUids db dir e.uid)).map
              (fun n => ⟨n.uid, e.currentDepth + 1, n.score⟩), by
                rw [List.append_assoc], ?_, ?_⟩, ?_, ?_, ?_⟩
          · intro x hx
            rcases List.mem_append.mp hx with hx' | hx'
            · exact hex x hx'
            · obtain ⟨n, hn, hxn⟩ := List.mem_map.mp hx'
              obtain ⟨_, hns⟩ := hnrmem n hn
              rw [← hxn]
              refine ⟨?_, ?_⟩
              · show e.currentDepth + 1 = dep
                omega
              · show n.score = layerScore dep
                rw [hns, he.2, ← hde, layerScore]
          · intro _ x hx
            have h1 := (List.pairwise_cons.mp hqok.1).1 x hx
            have h2 := (hqprop x (by rw [hq1]; exact List.mem_cons_of_mem _ hx)).1
            omega
          · exact queueOk_tail e rest hqok
          · intro x hx
            exact hqprop x (by rw [hq1]; exact List.mem_cons_of_mem _ hx)
          · intro n hn
            rcases List.mem_append.mp hn with hn' | hn'
            · exact hrprop n hn'
            · obtain ⟨hnd, hns⟩ := hnrmem n hn'
              refine ⟨by omega, by omega, ?_⟩
              rw [hnd, hns, he.2, layerScore]

/-- In a list sorted by score descending, an element above a threshold
survives truncation to any length that accommodates all above-threshold
elements. -/
theorem mem_take_of_sorted_big (τ : ℚ) :
    ∀ (l : List GNode) (lim : ℕ), List.Sorted nodeLe l →
    ∀ n ∈ l, τ < n.score →
    l.countP (fun g => decide (τ < g.score)) ≤ lim → n ∈ l.take lim := by
  intro l
  induction l with
  | nil => intro lim _ n hn; cases hn
  | cons a tl ih =>
    intro lim hs n hn hτ hcount
    cases lim with
    | zero =>
      exfalso
      have hpos : 0 < (a :: tl).countP (fun g => decide (τ < g.score)) :=
        List.countP_pos_iff.mpr ⟨n, hn, by simpa using hτ⟩
      omega
    | succ m =>
      rw [List.take_succ_cons]
      rcases List.mem_cons.mp hn with h | h
      · exact h ▸ List.mem_cons_self _ _
      · refine List.mem_cons_of_mem _ (ih m hs.of_cons n h hτ ?_)
        have ha : nodeLe a n := List.rel_of_sorted_cons hs n h
        have hPa : τ < a.score := lt_of_lt_of_le hτ ha
        rw [List.countP_cons] at hcount
        simp only [hPa, decide_eq_true_eq, if_pos] at hcount
        omega

/-- Claim C8 (confirmed): with the database, start node, limit and
direction held equal, every node returned by the traversal at depth
`k - 1` is also returned at depth `k`, for every `k ≥ 1`. -/
theorem findConnectedNotes_depth_superset (db : LinksDb) (startUid : String)
    (limit : ℕ) (dir : BfsDirection) (k : ℕ) (hk : 1 ≤ k) (n : GNode)
    (hn : n ∈ findConnectedNotes db startUid (k - 1) limit dir) :
    n ∈ findConnectedNotes db startUid k limit dir := by
  obtain ⟨dep, rfl⟩ : ∃ dep, k = dep + 1 := ⟨k - 1, by omega⟩
  rw [Nat.add_sub_cancel] at hn
  by_cases hdep : dep = 0
  · subst hdep
    rw [findConnected_depth_zero_aux] at hn
    cases hn
  · have hdep1 : 1 ≤ dep := by omega
    have hfc : ∀ d : ℕ, findConnectedNotes db startUid d limit dir =
        (List.insertionSort nodeLe (bfsLoop db dir d limit (1 + 2 * db.links.length)
          ⟨[startUid], [], [⟨startUid, 0, 1⟩]⟩)).take limit := fun d => rfl
    rw [hfc] at hn
    rw [hfc]
    have hinv : BfsInv dep ⟨[startUid], [], [⟨startUid, 0, 1⟩]⟩
        ⟨[startUid], [], [⟨startUid, 0, 1⟩]⟩ := by
      refine ⟨rfl, rfl, ⟨[], by simp, by simp, by simp⟩, ⟨?_, ?_⟩, ?_, ?_⟩
      · exact List.pairwise_singleton _ _
      · intro a ha b hb
        rw [List.mem_singleton.mp ha, List.mem_singleton.mp hb]
        omega
      · intro e he
        rw [List.mem_singleton.mp he]
        refine ⟨?_, rfl⟩
        show (0 : ℕ) < dep
        omega
      · intro x hx
        cases hx
    obtain ⟨ext, hrun, hext, hlen, hR1⟩ :=
      bfs_sim db dir limit dep hdep1 (1 + 2 * db.links.length) _ _ hinv
    rw [hrun]
    cases ext with
    | nil =>
      rw [List.append_nil]
      exact hn
    | cons x xs =>
      have hR1len := hlen (by simp)
      have hnR1 : n ∈ bfsLoop db dir dep limit (1 + 2 * db.links.length)
          ⟨[startUid], [], [⟨startUid, 0, 1⟩]⟩ :=
        ((List.perm_insertionSort nodeLe _).mem_iff).mp (List.take_subset _ _ hn)
      obtain ⟨hd1, hd2, hsc⟩ := hR1 n hnR1
      have hτ : layerScore (dep + 1) < n.score := by
        rw [hsc]
        exact layerScore_lt_of_lt n.depth (dep + 1) hd1 (by omega)
      refine mem_take_of_sorted_big (layerScore (dep + 1)) _ limit
        (List.sorted_insertionSort nodeLe _) n
        (((List.perm_insertionSort nodeLe _).mem_iff).mpr
          (List.mem_append.mpr (Or.inl hnR1))) hτ ?_
      have hco : (List.insertionSort nodeLe
          ((bfsLoop db dir dep limit (1 + 2 * db.links.length)
            ⟨[startUid], [], [⟨startUid, 0, 1⟩]⟩) ++ x :: xs)).countP
            (fun g => decide (layerScore (dep + 1) < g.score)) =
          (bfsLoop db dir dep limit (1 + 2 * db.links.length)
            ⟨[startUid], [], [⟨startUid, 0, 1⟩]⟩).length := by
        rw [(List.perm_insertionSort nodeLe _).countP_eq, List.countP_append]
        have h1 : (bfsLoop db dir dep limit (1 + 2 * db.links.length)
            ⟨[startUid], [], [⟨startUid, 0, 1⟩]⟩).countP
              (fun g => decide (layerScore (dep + 1) < g.score)) =
            (bfsLoop db dir dep limit (1 + 2 * db.links.length)
              ⟨[startUid], [], [⟨startUid, 0, 1⟩]⟩).length := by
          refine List.countP_eq_length.mpr ?_
          intro a ha
          obtain ⟨ha1, ha2, ha3⟩ := hR1 a ha
          have := layerScore_lt_of_lt a.depth (dep + 1) ha1 (by omega)
          rw [← ha3] at this
          simpa using this
        have h2 : (x :: xs).countP (fun g => decide (layerScore (dep + 1) < g.score)) = 0 := by
          refine List.countP_eq_zero.mpr ?_
          intro a ha
          obtain ⟨_, ha2⟩ := hext a ha
          simp [ha2]
        rw [h1, h2]
        omega
      rw [hco]
      omega

/-- Witness for C8 on the chain graph at `k = 2`: the depth-1 neighbor of
the start node is also returned at depth 2. -/
theorem findConnectedNotes_depth_superset_witness :
    (1 ≤ 2 ∧
      (⟨"b", 1, 1⟩ : GNode) ∈ findConnectedNotes chainDb "a" (2 - 1) 100 .both) ∧
    (⟨"b", 1, 1⟩ : GNode) ∈ findConnectedNotes chainDb "a" 2 100 .both :=
  ⟨⟨by omega, by decide⟩,
    findConnectedNotes_depth_superset chainDb "a" 100 .both 2 (by omega)
      ⟨"b", 1, 1⟩ (by decide)⟩

end MemoryMcp
